import Mathlib

/-!
Verification of the rule-list builder (`src/main.py`).

Python strings are modelled as `List Char`.  The functions below are shallow
embeddings of the corresponding Python functions of the source:

* `pyStrip`          models `str.strip()` (ASCII whitespace; the rare Unicode
                     whitespace code points stripped by CPython are not modelled);
* `splitLines`       models `str.splitlines()`;
* `pyFind`           models `str.find(sub)` (`none` stands for `-1`);
* `splitOn`          models `str.split(sep)` for a one-character separator;
* `strStartsWith`    models `str.startswith(s)`;
* `strip_comment`    models `_strip_comment` (src/main.py lines 23-34);
* `classifyLine`     models the body of the entry loop of `parse_clash_or_plain`
                     (src/main.py lines 63-96);
* `parse_clash_or_plain` models the whole function (src/main.py lines 36-102),
                     with `yaml.safe_load` abstracted as a parameter
                     `load : List Char → Option Yaml` (`none` models a parse
                     error being raised, which the source catches);
* `classify_and_merge` models the per-group aggregation of `main`
                     (src/main.py lines 150-164);
* `build_ruleset_json` models `build_ruleset_json` (src/main.py lines 111-123).
-/

/-- ASCII whitespace as recognised by Python `str.strip()`. -/
def isPySpace (c : Char) : Bool :=
  c = ' ' || c = '\t' || c = '\n' || c = '\r' || c = '\x0b' || c = '\x0c'

/-- Remove trailing whitespace characters (helper for `pyStrip`). -/
def dropTrailingWS : List Char → List Char
  | [] => []
  | c :: t =>
    match dropTrailingWS t with
    | [] => if isPySpace c then [] else [c]
    | r => c :: r

/-- Python `str.strip()`: remove leading and trailing whitespace. -/
def pyStrip (s : List Char) : List Char :=
  dropTrailingWS (s.dropWhile isPySpace)

/-- Line-break characters recognised by Python `str.splitlines()`. -/
def isLineBreak (c : Char) : Bool :=
  c = '\n' || c = '\r' || c = '\x0b' || c = '\x0c' ||
  c = '\x1c' || c = '\x1d' || c = '\x1e' || c = '\x85' ||
  c = Char.ofNat 0x2028 || c = Char.ofNat 0x2029

/-- Python `str.splitlines()` (keepends = False); `\r\n` counts as one break. -/
def splitLines : List Char → List (List Char)
  | [] => []
  | '\r' :: '\n' :: t2 => [] :: splitLines t2
  | c :: t =>
    if isLineBreak c then
      [] :: splitLines t
    else
      match splitLines t with
      | [] => [[c]]
      | l :: ls => (c :: l) :: ls

/-- Python `str.startswith(pat)` (first argument is the pattern). -/
def strStartsWith : List Char → List Char → Bool
  | [], _ => true
  | _ :: _, [] => false
  | c :: p, d :: s => c = d && strStartsWith p s

/-- Index of the first suffix of `s` satisfying `pr` (used to model
`str.find`: for the patterns used here, `str.find(pat)` is the first index
whose suffix starts with `pat`). -/
def firstMatch (pr : List Char → Bool) : List Char → Option Nat
  | [] => none
  | c :: t => if pr (c :: t) then some 0 else (firstMatch pr t).map (· + 1)

/-- Python `str.find(sub)` for non-empty `sub`; `none` models `-1`. -/
def pyFind (sub : List Char) (s : List Char) : Option Nat :=
  firstMatch (fun u => strStartsWith sub u) s

/-- Python `str.split(sep)` for a single-character separator: keeps empty
fields, always returns at least one field. -/
def splitOn (sep : Char) : List Char → List (List Char)
  | [] => [[]]
  | c :: t =>
    if c = sep then [] :: splitOn sep t
    else
      match splitOn sep t with
      | [] => [[c]]
      | l :: ls => (c :: l) :: ls

/-- Python `c in s` for a character. -/
def strContains (s : List Char) (c : Char) : Bool :=
  s.any (fun d => d = c)

/-- One iteration of the comment-separator loop of `_strip_comment`:
`idx = line.find(sep); if idx != -1: line = line[:idx].strip()`. -/
def stripCommentStep (sep : List Char) (line : List Char) : List Char :=
  match pyFind sep line with
  | none => line
  | some i => pyStrip (line.take i)

/-- `_strip_comment` (src/main.py lines 23-34): trim, then truncate in turn at
the first occurrence of each of `" #"`, `" ;"`, `" //"`, trimming after each
truncation, and trim the final result. -/
def strip_comment (line : List Char) : List Char :=
  let l := pyStrip line
  if l = [] then []
  else
    pyStrip (stripCommentStep (' ' :: ['/', '/'])
      (stripCommentStep [' ', ';'] (stripCommentStep [' ', '#'] l)))

/-- A digit group of length between `lo` and `hi` (ASCII digits; the Unicode
digits accepted by Python `\d` are not modelled). -/
def digitGroup (lo hi : Nat) (g : List Char) : Bool :=
  decide (lo ≤ g.length) && decide (g.length ≤ hi) && g.all Char.isDigit

/-- The regular expression `^\d{1,3}(\.\d{1,3}){3}/\d{1,2}$` without the
end-of-string subtlety: four 1-3 digit groups separated by dots, a slash, and
a 1-2 digit group. -/
def ipv4cidrCore (s : List Char) : Bool :=
  match splitOn '/' s with
  | [addr, pre] =>
    (match splitOn '.' addr with
     | [a, b, c, d] =>
       digitGroup 1 3 a && digitGroup 1 3 b && digitGroup 1 3 c && digitGroup 1 3 d
     | _ => false) && digitGroup 1 2 pre
  | _ => false

/-- `re.match(r"^\d{1,3}(\.\d{1,3}){3}/\d{1,2}$", s)`: Python `$` also matches
just before one final newline. -/
def ipv4cidrMatch (s : List Char) : Bool :=
  ipv4cidrCore s ||
  (match s.getLast? with
   | some c => decide (c = '\n') && ipv4cidrCore s.dropLast
   | none => false)

/-- The classification result for one entry (spec ClassifiedRule; a dropped
entry, whether an unknown rule type or an empty value, appends nothing). -/
inductive ClassifiedRule where
  | Domain (value : List Char)
  | DomainSuffix (value : List Char)
  | IPNetwork (value : List Char)
  | Unsupported
deriving DecidableEq

/-- Body of the entry loop of `parse_clash_or_plain` (src/main.py lines 68-96)
on one already comment-stripped line, expressed as the rule the line
contributes (`Unsupported` when the loop appends nothing). -/
def classifyLine (line : List Char) : ClassifiedRule :=
  if strContains line ',' && !strStartsWith "http".data line then
    let parts := (splitOn ',' line).map pyStrip
    let ruleType := (parts.headD []).map Char.toUpper
    let value := parts.getD 1 []
    if ruleType = "DOMAIN".data then
      (if value ≠ [] then .Domain value else .Unsupported)
    else if ruleType = "DOMAIN-SUFFIX".data then
      (if value ≠ [] then .DomainSuffix value else .Unsupported)
    else if ruleType = "IP-CIDR".data || ruleType = "IP-CIDR6".data then
      (if value ≠ [] then .IPNetwork value else .Unsupported)
    else .Unsupported
  else if ipv4cidrMatch line then .IPNetwork line
  else if strContains line '.' && !strContains line ' ' && !strContains line '/' then
    .DomainSuffix line
  else .Unsupported

/-- One full iteration of the entry loop: comment-strip the raw entry, skip it
when the result is empty, classify otherwise. -/
def classifyEntry (raw : List Char) : ClassifiedRule :=
  let line := strip_comment raw
  if line = [] then .Unsupported else classifyLine line

/-- Values returned by `yaml.safe_load` (floats and other scalar kinds that
never occur in rule payloads are not modelled).  Keys of a mapping are
arbitrary values, as in YAML. -/
inductive Yaml where
  | str (s : List Char)
  | int (n : Int)
  | bool (b : Bool)
  | null
  | list (xs : List Yaml)
  | map (kvs : List (Yaml × Yaml))

mutual

/-- Python `repr` of a YAML value (quote escaping inside strings is not
modelled; no claim stringifies a nested container). -/
def pyRepr : Yaml → List Char
  | .str s => Char.ofNat 39 :: (s ++ [Char.ofNat 39])
  | .int n => (toString n).data
  | .bool b => if b then "True".data else "False".data
  | .null => "None".data
  | .list xs => '[' :: (pyReprElems xs ++ [']'])
  | .map kvs => Char.ofNat 123 :: (pyReprPairs kvs ++ [Char.ofNat 125])

/-- `repr` of list elements, comma separated. -/
def pyReprElems : List Yaml → List Char
  | [] => []
  | [x] => pyRepr x
  | x :: y :: xs => pyRepr x ++ (", ".data ++ pyReprElems (y :: xs))

/-- `repr` of mapping items, comma separated. -/
def pyReprPairs : List (Yaml × Yaml) → List Char
  | [] => []
  | [(k, v)] => pyRepr k ++ (": ".data ++ pyRepr v)
  | (k, v) :: p :: xs =>
    pyRepr k ++ (": ".data ++ (pyRepr v ++ (", ".data ++ pyReprPairs (p :: xs))))

end

/-- Python `str(x)`: identical to `repr` except on strings. -/
def pyStr : Yaml → List Char
  | .str s => s
  | y => pyRepr y

/-- Whether a mapping key is the string `"payload"`. -/
def isPayloadKey : Yaml → Bool
  | .str s => s = "payload".data
  | _ => false

/-- `y["payload"]` for a mapping: the last binding wins, as for duplicate keys
in a Python dict built by PyYAML; `none` models `"payload" not in y`. -/
def lookupPayload (kvs : List (Yaml × Yaml)) : Option Yaml :=
  ((kvs.filter (fun kv => isPayloadKey kv.1)).getLast?).map (fun kv => kv.2)

/-- The `payload` extraction of `parse_clash_or_plain` (src/main.py lines
49-55): the loaded document must be a mapping whose `"payload"` entry is a
list; every other outcome (including a parse error, `none`) leaves `payload`
as `None`. -/
def getPayload : Option Yaml → Option (List Yaml)
  | some (.map kvs) =>
    match lookupPayload kvs with
    | some (.list xs) => some xs
    | _ => none
  | _ => none

/-- The `lines` value of `parse_clash_or_plain` (src/main.py lines 57-61):
stringified, trimmed, non-empty payload elements when a payload was found,
otherwise the physical lines of the text. -/
def pyLines (load : List Char → Option Yaml) (text : List Char) : List (List Char) :=
  match getPayload (load text) with
  | some payload => (payload.map (fun x => pyStrip (pyStr x))).filter (fun l => l ≠ [])
  | none => splitLines text

/-- The three per-category collections (spec RuleSet). -/
structure RuleSet where
  domains : List (List Char)
  suffixes : List (List Char)
  cidrs : List (List Char)
deriving DecidableEq

/-- Python `sorted(set(l))` for a list of strings: the distinct elements in
lexicographic code-point order. -/
def pySortedSet (l : List (List Char)) : List (List Char) :=
  List.insertionSort (· ≤ ·) l.dedup

/-- Value appended to `domains` by one loop iteration, if any. -/
def ruleDomain : ClassifiedRule → Option (List Char)
  | .Domain v => some v
  | _ => none

/-- Value appended to `suffixes` by one loop iteration, if any. -/
def ruleSuffix : ClassifiedRule → Option (List Char)
  | .DomainSuffix v => some v
  | _ => none

/-- Value appended to `cidrs` by one loop iteration, if any. -/
def ruleCidr : ClassifiedRule → Option (List Char)
  | .IPNetwork v => some v
  | _ => none

/-- The entry loop plus the final per-category `sorted(set(...))` of
`parse_clash_or_plain` (src/main.py lines 63-102), on an entry sequence. -/
def aggregateEntries (entries : List (List Char)) : RuleSet :=
  let rules := entries.map classifyEntry
  ⟨pySortedSet (rules.filterMap ruleDomain),
   pySortedSet (rules.filterMap ruleSuffix),
   pySortedSet (rules.filterMap ruleCidr)⟩

/-- `parse_clash_or_plain` (src/main.py lines 36-102). -/
def parse_clash_or_plain (load : List Char → Option Yaml) (text : List Char) : RuleSet :=
  aggregateEntries (pyLines load text)

/-- The per-group pipeline of `main` (src/main.py lines 150-164): parse every
source text, concatenate the three categories in source order, then
`sorted(set(...))` each. -/
def classify_and_merge (load : List Char → Option Yaml)
    (texts : List (List Char)) : RuleSet :=
  let per := texts.map (parse_clash_or_plain load)
  ⟨pySortedSet ((per.map RuleSet.domains).flatten),
   pySortedSet ((per.map RuleSet.suffixes).flatten),
   pySortedSet ((per.map RuleSet.cidrs).flatten)⟩

/-- JSON values (numbers restricted to integers; the file only emits `3`). -/
inductive Json where
  | num (n : Int)
  | str (s : List Char)
  | arr (xs : List Json)
  | obj (fields : List (List Char × Json))

/-- `build_ruleset_json` (src/main.py lines 111-123). -/
def build_ruleset_json (domains suffixes cidrs : List (List Char)) : Json :=
  let rules :=
    (if domains ≠ [] then [Json.obj [("domain".data, Json.arr (domains.map Json.str))]] else []) ++
    ((if suffixes ≠ [] then [Json.obj [("domain_suffix".data, Json.arr (suffixes.map Json.str))]] else []) ++
     (if cidrs ≠ [] then [Json.obj [("ip_cidr".data, Json.arr (cidrs.map Json.str))]] else []))
  Json.obj [("version".data, Json.num 3), ("rules".data, Json.arr rules)]

/-- A comment-introducer token preceded by a space character: the suffix
starts with one of `" #"`, `" ;"`, `" //"`. -/
def anyPat (u : List Char) : Bool :=
  strStartsWith [' ', '#'] u || strStartsWith [' ', ';'] u ||
    strStartsWith (' ' :: ['/', '/']) u

/-- Comment removal as the amended claim describes it: trim, truncate at the
first comment-introducer token preceded by a space character (if any), trim
again. -/
def specStripCommentSpace (line : List Char) : List Char :=
  let l := pyStrip line
  match firstMatch anyPat l with
  | none => l
  | some j => pyStrip (l.take j)

/-- A comment-introducer token (`#`, `;`, `//`) preceded by a whitespace
character. -/
def commentTokenAfterWS (u : List Char) : Bool :=
  match u with
  | c :: d :: rest =>
    isPySpace c && (d = '#' || d = ';' || (d = '/' && rest.headD ' ' = '/'))
  | _ => false

/-- Comment removal as the claim states it, following the spec's words: trim,
truncate at the first comment-introducer token preceded by whitespace (if
any), trim again. -/
def specStripCommentWS (line : List Char) : List Char :=
  let l := pyStrip line
  match firstMatch commentTokenAfterWS l with
  | none => l
  | some j => pyStrip (l.take j)

/-- Truncation of a string at the first comment-introducer-after-space
position, with no trimming (proof-side normal form for `specStripCommentSpace`
and for the sequential truncations of `strip_comment`). -/
def cutAtFirstAny (s : List Char) : List Char :=
  match firstMatch anyPat s with
  | none => s
  | some m => s.take m

/-- A YAML document that is a mapping binding the key `"entries"` (not
`"payload"`) to a list; `yaml.safe_load("entries:\n- a.com")` returns it. -/
def yamlEntriesDoc : Yaml :=
  .map [(.str "entries".data, .list [.str "a.com".data])]

/-- Loader returning `yamlEntriesDoc` for the one text that parses to it. -/
def loadEntriesDoc : List Char → Option Yaml :=
  fun t => if t = "entries:\n- a.com".data then some yamlEntriesDoc else none

/-- A mapping binding `"payload"` to a list of rule strings. -/
def yamlPayloadDoc : Yaml :=
  .map [(.str "payload".data,
         .list [.str " DOMAIN,example.com ".data, .str "".data, .str "ads.net".data])]

/-- Loader that always reports `yamlPayloadDoc`. -/
def loadPayloadDoc : List Char → Option Yaml :=
  fun _ => some yamlPayloadDoc

/-- Loader modelling a parse failure (exception) on every text. -/
def loadNone : List Char → Option Yaml :=
  fun _ => none

/-! Lemmas about `pySortedSet`. -/

theorem pySortedSet_sorted_le (l : List (List Char)) :
    List.Sorted (· ≤ ·) (pySortedSet l) :=
  List.sorted_insertionSort _ _

theorem pySortedSet_nodup (l : List (List Char)) : (pySortedSet l).Nodup :=
  (List.perm_insertionSort _ _).nodup_iff.mpr (List.nodup_dedup l)

theorem pySortedSet_sorted_lt (l : List (List Char)) :
    List.Sorted (· < ·) (pySortedSet l) :=
  (pySortedSet_sorted_le l).lt_of_le (pySortedSet_nodup l)

theorem mem_pySortedSet {x : List Char} {l : List (List Char)} :
    x ∈ pySortedSet l ↔ x ∈ l := by
  unfold pySortedSet
  rw [(List.perm_insertionSort _ _).mem_iff, List.mem_dedup]

theorem pySortedSet_eq_of_perm {l l' : List (List Char)} (h : l.Perm l') :
    pySortedSet l = pySortedSet l' :=
  List.eq_of_perm_of_sorted
    ((List.perm_insertionSort _ _).trans (h.dedup.trans (List.perm_insertionSort _ _).symm))
    (pySortedSet_sorted_le l) (pySortedSet_sorted_le l')

/-- C6: in every RuleSet produced for a group, each of the three categories is
strictly sorted in lexicographic code-point order (hence contains no string
twice), and an entry classified from any source appears in the final category
iff it appears in some per-source category — so duplicates across or within
sources are collapsed to one occurrence. -/
theorem c6_ruleset_sorted_nodup (load : List Char → Option Yaml)
    (texts : List (List Char)) :
    ((classify_and_merge load texts).domains.Sorted (· < ·) ∧
     (classify_and_merge load texts).suffixes.Sorted (· < ·) ∧
     (classify_and_merge load texts).cidrs.Sorted (· < ·)) ∧
    ((classify_and_merge load texts).domains.Nodup ∧
     (classify_and_merge load texts).suffixes.Nodup ∧
     (classify_and_merge load texts).cidrs.Nodup) ∧
    (∀ x : List Char,
      x ∈ (classify_and_merge load texts).suffixes ↔
      x ∈ ((texts.map (parse_clash_or_plain load)).map RuleSet.suffixes).flatten) :=
  ⟨⟨pySortedSet_sorted_lt _, pySortedSet_sorted_lt _, pySortedSet_sorted_lt _⟩,
   ⟨pySortedSet_nodup _, pySortedSet_nodup _, pySortedSet_nodup _⟩,
   fun _ => mem_pySortedSet⟩

/-- C10: the three lists returned by `parse_clash_or_plain` for a single
source are already deduplicated and lexicographically sorted, before any
cross-source merging. -/
theorem c10_per_source_normalized (load : List Char → Option Yaml)
    (text : List Char) :
    ((parse_clash_or_plain load text).domains.Sorted (· < ·) ∧
     (parse_clash_or_plain load text).suffixes.Sorted (· < ·) ∧
     (parse_clash_or_plain load text).cidrs.Sorted (· < ·)) ∧
    ((parse_clash_or_plain load text).domains.Nodup ∧
     (parse_clash_or_plain load text).suffixes.Nodup ∧
     (parse_clash_or_plain load text).cidrs.Nodup) :=
  ⟨⟨pySortedSet_sorted_lt _, pySortedSet_sorted_lt _, pySortedSet_sorted_lt _⟩,
   ⟨pySortedSet_nodup _, pySortedSet_nodup _, pySortedSet_nodup _⟩⟩

/-- C7: permuting the order of a group's source texts leaves the merged
RuleSet unchanged. -/
theorem c7_source_order_invariance (load : List Char → Option Yaml)
    {t1 t2 : List (List Char)} (h : t1.Perm t2) :
    classify_and_merge load t1 = classify_and_merge load t2 := by
  have hp : (t1.map (parse_clash_or_plain load)).Perm (t2.map (parse_clash_or_plain load)) :=
    h.map _
  simp only [classify_and_merge]
  rw [pySortedSet_eq_of_perm ((hp.map RuleSet.domains).flatten),
      pySortedSet_eq_of_perm ((hp.map RuleSet.suffixes).flatten),
      pySortedSet_eq_of_perm ((hp.map RuleSet.cidrs).flatten)]

/-- Witness for C7 at a concrete pair of swapped source lists. -/
theorem c7_source_order_invariance_witness :
    classify_and_merge loadNone ["a.com".data, "DOMAIN,b.com".data] =
    classify_and_merge loadNone ["DOMAIN,b.com".data, "a.com".data] :=
  c7_source_order_invariance loadNone (List.Perm.swap _ _ _)

/-- C8: invoked with an empty list of source texts, the group pipeline
produces the empty RuleSet, and the empty RuleSet serializes to
`{"version": 3, "rules": []}` with every category object omitted. -/
theorem c8_empty_sources (load : List Char → Option Yaml) :
    classify_and_merge load [] = ⟨[], [], []⟩ ∧
    build_ruleset_json [] [] [] =
      Json.obj [("version".data, Json.num 3), ("rules".data, Json.arr [])] :=
  ⟨rfl, rfl⟩

/-! Lemmas about `strContains`, `splitOn` and the CIDR pattern. -/

theorem strContains_iff {l : List Char} {c : Char} : strContains l c = true ↔ c ∈ l := by
  simp [strContains]

theorem strContains_eq_false_iff {l : List Char} {c : Char} :
    strContains l c = false ↔ c ∉ l := by
  constructor
  · intro h hm
    rw [strContains_iff.mpr hm] at h
    cases h
  · intro h
    cases hh : strContains l c with
    | false => rfl
    | true => exact absurd (strContains_iff.mp hh) h

theorem splitOn_of_not_contains {sep : Char} {l : List Char}
    (h : strContains l sep = false) : splitOn sep l = [l] := by
  induction l with
  | nil => rfl
  | cons c t ih =>
    simp only [strContains, List.any_cons, Bool.or_eq_false_iff,
      decide_eq_false_iff_not] at h
    obtain ⟨hc, ht⟩ := h
    have ht2 : strContains t sep = false := ht
    simp only [splitOn, if_neg hc, ih ht2]

theorem ipv4cidrCore_of_no_slash {l : List Char}
    (h : strContains l '/' = false) : ipv4cidrCore l = false := by
  unfold ipv4cidrCore
  rw [splitOn_of_not_contains h]

theorem ipv4cidrMatch_of_no_slash {l : List Char}
    (h : strContains l '/' = false) : ipv4cidrMatch l = false := by
  have hd : strContains l.dropLast '/' = false := by
    rw [strContains_eq_false_iff] at h ⊢
    exact fun hm => h (List.dropLast_subset l hm)
  unfold ipv4cidrMatch
  cases hl : l.getLast? with
  | none => simp [ipv4cidrCore_of_no_slash h]
  | some c => simp [ipv4cidrCore_of_no_slash h, ipv4cidrCore_of_no_slash hd]

/-- C9: a line whose comment introducer has no preceding whitespace is not
treated as a comment: `"#ads.example.com"` survives normalization unchanged
and is classified as a domain-suffix entry, leading `#` included. -/
theorem c9_comment_introducer_line_kept :
    strip_comment "#ads.example.com".data = "#ads.example.com".data ∧
    classifyEntry "#ads.example.com".data =
      ClassifiedRule.DomainSuffix "#ads.example.com".data ∧
    parse_clash_or_plain loadNone "#ads.example.com".data =
      ⟨[], ["#ads.example.com".data], []⟩ := by
  refine ⟨by decide, by decide, by decide⟩

/-- C5: the classification/aggregation function is a total function of its
input (it is defined as a Lean function, so it returns a value on every
input and can raise nothing), and whenever the structured parse fails — the
loader models `yaml.safe_load` raising — the result is exactly the
line-oriented interpretation of the raw text. -/
theorem c5_parse_total_fallback (load : List Char → Option Yaml)
    (text : List Char) (h : load text = none) :
    parse_clash_or_plain load text = aggregateEntries (splitLines text) := by
  simp only [parse_clash_or_plain, pyLines, h, getPayload]

/-- Witness for C5 at a concrete failing loader. -/
theorem c5_parse_total_fallback_witness :
    parse_clash_or_plain loadNone "a.com\nbad entry".data =
      aggregateEntries (splitLines "a.com\nbad entry".data) :=
  c5_parse_total_fallback loadNone "a.com\nbad entry".data rfl

/-- C1 counterexample: the source text `"entries:\n- a.com"` parses to a
mapping binding the key `"entries"` to a list, yet the entry sequence is the
raw line split, not that list's stringified elements — the code only accepts
the key `"payload"`, not "some key whose value is a list" as the claim
states. -/
theorem c1_counterexample :
    loadEntriesDoc "entries:\n- a.com".data =
      some (Yaml.map [(Yaml.str "entries".data, Yaml.list [Yaml.str "a.com".data])]) ∧
    pyLines loadEntriesDoc "entries:\n- a.com".data =
      ["entries:".data, "- a.com".data] ∧
    pyLines loadEntriesDoc "entries:\n- a.com".data ≠
      [pyStrip (pyStr (Yaml.str "a.com".data))] := by
  refine ⟨rfl, by decide, by decide⟩

/-- C1 (amended): when the loaded document is a mapping whose `"payload"` key
holds a list, the entry sequence is that list's elements, each coerced to its
string representation and trimmed (empty results dropped), instead of the
line split of the raw text. -/
theorem c1_payload_key_extraction (load : List Char → Option Yaml)
    (text : List Char) (kvs : List (Yaml × Yaml)) (xs : List Yaml)
    (hl : load text = some (Yaml.map kvs))
    (hp : lookupPayload kvs = some (Yaml.list xs)) :
    pyLines load text =
      (xs.map (fun x => pyStrip (pyStr x))).filter (fun l => l ≠ []) := by
  simp only [pyLines, getPayload, hl, hp]

/-- Witness for C1 (amended) at a concrete payload document. -/
theorem c1_payload_key_extraction_witness :
    pyLines loadPayloadDoc "x".data =
      ["DOMAIN,example.com".data, "ads.net".data] := by
  rw [c1_payload_key_extraction loadPayloadDoc "x".data _ _ rfl rfl]
  decide

/-- C2 counterexample: `"x,y.z"` is a normalized non-empty entry containing a
dot, no whitespace and no slash, yet it is not classified as a domain suffix
— the comma sends it into the `TYPE,VALUE` branch, where the unknown type
token `X` makes it dropped. -/
theorem c2_counterexample :
    strip_comment "x,y.z".data = "x,y.z".data ∧
    ("x,y.z".data ≠ ([] : List Char)) ∧
    strContains "x,y.z".data '.' = true ∧
    "x,y.z".data.all (fun c => !isPySpace c) = true ∧
    strContains "x,y.z".data '/' = false ∧
    classifyLine "x,y.z".data = ClassifiedRule.Unsupported ∧
    classifyLine "x,y.z".data ≠ ClassifiedRule.DomainSuffix "x,y.z".data := by
  decide

/-- C2 (amended): a normalized entry that contains a dot, no whitespace and
no slash, and moreover does not enter the `TYPE,VALUE` branch (it contains no
comma, or begins with `http`), classifies as DomainSuffix of the exact input
string. -/
theorem c2_bare_domain_suffix (line : List Char)
    (hdot : strContains line '.' = true)
    (hws : line.all (fun c => !isPySpace c) = true)
    (hsl : strContains line '/' = false)
    (hcm : strContains line ',' = false ∨ strStartsWith "http".data line = true) :
    classifyLine line = ClassifiedRule.DomainSuffix line := by
  have h1 : (strContains line ',' && !strStartsWith "http".data line) = false := by
    rcases hcm with h | h <;> simp [h]
  have hsp : strContains line ' ' = false := by
    rw [strContains_eq_false_iff]
    intro hm
    have h2 := List.all_eq_true.mp hws ' ' hm
    simp [isPySpace] at h2
  have h3 : ipv4cidrMatch line = false := ipv4cidrMatch_of_no_slash hsl
  simp only [classifyLine, h1, h3, hdot, hsl, hsp]
  simp

/-- Witness for C2 (amended) at a concrete bare domain token. -/
theorem c2_bare_domain_suffix_witness :
    classifyLine "ads.example.com".data =
      ClassifiedRule.DomainSuffix "ads.example.com".data :=
  c2_bare_domain_suffix "ads.example.com".data (by decide) (by decide) (by decide)
    (Or.inl (by decide))

/-! Lemmas for the `TYPE,VALUE` branch (claim C4). -/

theorem splitOn_append {sep : Char} {t v : List Char}
    (ht : strContains t sep = false) :
    splitOn sep (t ++ sep :: v) = t :: splitOn sep v := by
  induction t with
  | nil => simp [splitOn]
  | cons c t2 ih =>
    simp only [strContains, List.any_cons, Bool.or_eq_false_iff,
      decide_eq_false_iff_not] at ht
    obtain ⟨hc, ht2⟩ := ht
    have ih2 := ih ht2
    simp only [List.cons_append, splitOn, if_neg hc]
    rw [List.append_eq, ih2]

theorem dropTrailingWS_cons_of_not_space {c : Char} (t : List Char)
    (hc : isPySpace c = false) :
    ∃ r, dropTrailingWS (c :: t) = c :: r := by
  cases h : dropTrailingWS t with
  | nil => exact ⟨[], by simp [dropTrailingWS, h, hc]⟩
  | cons a r => exact ⟨a :: r, by simp [dropTrailingWS, h]⟩

theorem not_http_of_ruleType (t v W : List Char)
    (hW : W = "DOMAIN".data ∨ W = "DOMAIN-SUFFIX".data ∨
          W = "IP-CIDR".data ∨ W = "IP-CIDR6".data)
    (ht : (pyStrip t).map Char.toUpper = W) :
    strStartsWith "http".data (t ++ ',' :: v) = false := by
  cases hs : strStartsWith "http".data (t ++ ',' :: v) with
  | false => rfl
  | true =>
    exfalso
    have hd : "http".data = 'h' :: "ttp".data := rfl
    cases t with
    | nil =>
      rw [List.nil_append, hd] at hs
      simp only [strStartsWith, Bool.and_eq_true] at hs
      exact absurd hs.1 (by decide)
    | cons c t2 =>
      rw [List.cons_append, hd] at hs
      simp only [strStartsWith, Bool.and_eq_true, decide_eq_true_eq] at hs
      obtain ⟨hch, -⟩ := hs
      cases hch
      have hps : ∃ r, pyStrip ('h' :: t2) = 'h' :: r := by
        unfold pyStrip
        rw [List.dropWhile_cons_of_neg (by decide)]
        exact dropTrailingWS_cons_of_not_space t2 (by decide)
      obtain ⟨r, hr⟩ := hps
      rw [hr, List.map_cons] at ht
      have hWh : W.headD ' ' = 'D' ∨ W.headD ' ' = 'I' := by
        rcases hW with h | h | h | h <;> subst h
        · exact Or.inl (by decide)
        · exact Or.inl (by decide)
        · exact Or.inr (by decide)
        · exact Or.inr (by decide)
      have h2 : Char.toUpper 'h' = W.headD ' ' := congrArg (fun l => l.headD ' ') ht
      rcases hWh with h3 | h3 <;> rw [h3] at h2 <;> exact absurd h2 (by decide)

/-- C4: a `TYPE,VALUE` line (comma-free TYPE field) with TYPE trimming and
uppercasing to DOMAIN, DOMAIN-SUFFIX, IP-CIDR or IP-CIDR6 and VALUE trimming
to a non-empty string classifies as the corresponding variant carrying VALUE
trimmed; with any other TYPE token, a comma-containing line not beginning
with `http` classifies as Unsupported (dropped) whatever the VALUE. -/
theorem c4_type_value_classification (t v : List Char)
    (ht : strContains t ',' = false) :
    (strContains v ',' = false → pyStrip v ≠ [] →
      (((pyStrip t).map Char.toUpper = "DOMAIN".data →
         classifyLine (t ++ ',' :: v) = ClassifiedRule.Domain (pyStrip v)) ∧
       ((pyStrip t).map Char.toUpper = "DOMAIN-SUFFIX".data →
         classifyLine (t ++ ',' :: v) = ClassifiedRule.DomainSuffix (pyStrip v)) ∧
       (((pyStrip t).map Char.toUpper = "IP-CIDR".data ∨
         (pyStrip t).map Char.toUpper = "IP-CIDR6".data) →
         classifyLine (t ++ ',' :: v) = ClassifiedRule.IPNetwork (pyStrip v)))) ∧
    (strStartsWith "http".data (t ++ ',' :: v) = false →
      (pyStrip t).map Char.toUpper ≠ "DOMAIN".data →
      (pyStrip t).map Char.toUpper ≠ "DOMAIN-SUFFIX".data →
      (pyStrip t).map Char.toUpper ≠ "IP-CIDR".data →
      (pyStrip t).map Char.toUpper ≠ "IP-CIDR6".data →
      classifyLine (t ++ ',' :: v) = ClassifiedRule.Unsupported) := by
  have hc : strContains (t ++ ',' :: v) ',' = true := strContains_iff.mpr (by simp)
  have hsp := splitOn_append (v := v) ht
  constructor
  · intro hv hne
    have hv1 : splitOn ',' v = [v] := splitOn_of_not_contains hv
    refine ⟨?_, ?_, ?_⟩
    · intro hW
      have hh := not_http_of_ruleType t v _ (Or.inl rfl) hW
      simp only [classifyLine, hc, hh, Bool.not_false, Bool.and_true, if_true,
        hsp, hv1, List.map_cons, List.map_nil, List.headD_cons, List.getD_cons_succ,
        List.getD_cons_zero, hW]
      rw [if_pos hne]
    · intro hW
      have hh := not_http_of_ruleType t v _ (Or.inr (Or.inl rfl)) hW
      simp only [classifyLine, hc, hh, Bool.not_false, Bool.and_true, if_true,
        hsp, hv1, List.map_cons, List.map_nil, List.headD_cons, List.getD_cons_succ,
        List.getD_cons_zero, hW]
      rw [if_neg (by decide), if_pos hne]
    · intro hW
      rcases hW with hW | hW
      · have hh := not_http_of_ruleType t v _ (Or.inr (Or.inr (Or.inl rfl))) hW
        simp only [classifyLine, hc, hh, Bool.not_false, Bool.and_true, if_true,
          hsp, hv1, List.map_cons, List.map_nil, List.headD_cons, List.getD_cons_succ,
          List.getD_cons_zero, hW]
        rw [if_neg (by decide), if_neg (by decide), if_pos (by decide), if_pos hne]
      · have hh := not_http_of_ruleType t v _ (Or.inr (Or.inr (Or.inr rfl))) hW
        simp only [classifyLine, hc, hh, Bool.not_false, Bool.and_true, if_true,
          hsp, hv1, List.map_cons, List.map_nil, List.headD_cons, List.getD_cons_succ,
          List.getD_cons_zero, hW]
        rw [if_neg (by decide), if_neg (by decide), if_pos (by decide), if_pos hne]
  · intro hh h1 h2 h3 h4
    simp only [classifyLine, hc, hh, Bool.not_false, Bool.and_true, if_true,
      hsp, List.map_cons, List.headD_cons]
    rw [if_neg h1, if_neg h2, if_neg (by simp [h3, h4])]

/-- Witness for C4 at a DOMAIN line and at an unknown-type line. -/
theorem c4_type_value_classification_witness :
    classifyLine ("DOMAIN".data ++ ',' :: "example.com".data) =
      ClassifiedRule.Domain (pyStrip "example.com".data) ∧
    classifyLine ("DOMAIN-KEYWORD".data ++ ',' :: "foo".data) =
      ClassifiedRule.Unsupported := by
  constructor
  · exact ((c4_type_value_classification "DOMAIN".data "example.com".data
      (by decide)).1 (by decide) (by decide)).1 (by decide)
  · exact (c4_type_value_classification "DOMAIN-KEYWORD".data "foo".data
      (by decide)).2 (by decide) (by decide) (by decide) (by decide) (by decide)

/-! Lemmas about `strStartsWith` and `firstMatch` (for claim C3). -/

theorem ssw_iff_append {p s : List Char} :
    strStartsWith p s = true ↔ ∃ r, s = p ++ r := by
  induction p generalizing s with
  | nil => simp [strStartsWith]
  | cons c p2 ih =>
    cases s with
    | nil =>
      simp only [strStartsWith, List.cons_append]
      constructor
      · intro h; cases h
      · rintro ⟨r, h⟩; cases h
    | cons d s2 =>
      simp only [strStartsWith, Bool.and_eq_true, decide_eq_true_eq, ih,
        List.cons_append]
      constructor
      · rintro ⟨rfl, r, rfl⟩; exact ⟨r, rfl⟩
      · rintro ⟨r, h⟩
        injection h with h1 h2
        exact ⟨h1.symm, r, h2⟩

theorem ssw_length_le {p s : List Char} (h : strStartsWith p s = true) :
    p.length ≤ s.length := by
  obtain ⟨r, rfl⟩ := ssw_iff_append.mp h
  simp

theorem ssw_nil_of_ne {p : List Char} (hp : p ≠ []) :
    strStartsWith p [] = false := by
  cases p with
  | nil => exact absurd rfl hp
  | cons c t => rfl

theorem ssw_take_iff {p s : List Char} {k : Nat} :
    strStartsWith p (s.take k) = true ↔
      strStartsWith p s = true ∧ p.length ≤ k := by
  constructor
  · intro h
    obtain ⟨r, hr⟩ := ssw_iff_append.mp h
    have hk : p.length ≤ k := by
      have := congrArg List.length hr
      simp only [List.length_take, List.length_append] at this
      omega
    refine ⟨ssw_iff_append.mpr ⟨r ++ s.drop k, ?_⟩, hk⟩
    conv_lhs => rw [← List.take_append_drop k s]
    rw [hr, List.append_assoc]
  · rintro ⟨h, hk⟩
    obtain ⟨r, rfl⟩ := ssw_iff_append.mp h
    refine ssw_iff_append.mpr ⟨r.take (k - p.length), ?_⟩
    rw [List.take_append_eq_append_take, List.take_of_length_le (by omega)]

theorem ssw_drop_take_iff {p s : List Char} {e j : Nat} (hp : p ≠ []) :
    strStartsWith p ((s.take e).drop j) = true ↔
      strStartsWith p (s.drop j) = true ∧ j + p.length ≤ e := by
  rw [List.drop_take, ssw_take_iff]
  constructor
  · rintro ⟨h1, h2⟩
    refine ⟨h1, ?_⟩
    rcases le_or_lt j e with hje | hje
    · omega
    · have : p.length = 0 := by omega
      exact absurd (List.length_eq_zero.mp this) hp
  · rintro ⟨h1, h2⟩
    exact ⟨h1, by omega⟩

theorem ssw_getElem {p s : List Char} {j : Nat}
    (h : strStartsWith p (s.drop j) = true) :
    ∀ i, i < p.length → s[j + i]? = p[i]? := by
  intro i hi
  obtain ⟨r, hr⟩ := ssw_iff_append.mp h
  rw [← List.getElem?_drop, hr, List.getElem?_append, if_pos hi]

theorem firstMatch_some {pr : List Char → Bool} {s : List Char} {j : Nat}
    (h : firstMatch pr s = some j) :
    pr (s.drop j) = true ∧ ∀ i, i < j → pr (s.drop i) = false := by
  induction s generalizing j with
  | nil => cases h
  | cons c t ih =>
    by_cases hc : pr (c :: t) = true
    · rw [firstMatch, if_pos hc] at h
      injection h with h
      subst h
      exact ⟨hc, fun i hi => absurd hi (Nat.not_lt_zero i)⟩
    · rw [firstMatch, if_neg hc] at h
      cases hf : firstMatch pr t with
      | none => rw [hf] at h; cases h
      | some j2 =>
        rw [hf] at h
        simp only [Option.map_some'] at h
        injection h with h
        subst h
        obtain ⟨h1, h2⟩ := ih hf
        refine ⟨h1, fun i hi => ?_⟩
        cases i with
        | zero =>
          simp only [List.drop_zero]
          exact Bool.eq_false_iff.mpr hc
        | succ i2 => exact h2 i2 (by omega)

theorem firstMatch_none {pr : List Char → Bool} {s : List Char}
    (h : firstMatch pr s = none) :
    ∀ i, i < s.length → pr (s.drop i) = false := by
  induction s with
  | nil => intro i hi; cases hi
  | cons c t ih =>
    by_cases hc : pr (c :: t) = true
    · rw [firstMatch, if_pos hc] at h; cases h
    · rw [firstMatch, if_neg hc] at h
      intro i hi
      cases i with
      | zero => exact Bool.eq_false_iff.mpr hc
      | succ i2 =>
        cases hf : firstMatch pr t with
        | none =>
          exact ih hf i2 (by simp only [List.length_cons] at hi; omega)
        | some j2 => rw [hf] at h; cases h

theorem firstMatch_eq_some {pr : List Char → Bool} {s : List Char} {j : Nat}
    (hj : pr (s.drop j) = true) (hmin : ∀ i, i < j → pr (s.drop i) = false)
    (hlen : j < s.length) :
    firstMatch pr s = some j := by
  induction s generalizing j with
  | nil => cases hlen
  | cons c t ih =>
    cases j with
    | zero =>
      simp only [List.drop_zero] at hj
      rw [firstMatch, if_pos hj]
    | succ j2 =>
      have hc : pr (c :: t) = false := hmin 0 (Nat.succ_pos j2)
      rw [firstMatch, if_neg (by rw [hc]; exact Bool.false_ne_true)]
      have ht : firstMatch pr t = some j2 :=
        ih hj (fun i hi => hmin (i + 1) (by omega))
          (by simp only [List.length_cons] at hlen; omega)
      rw [ht]
      rfl

/-! Structure lemmas about `dropTrailingWS` and `pyStrip` (for claim C3). -/

theorem dtw_eq_take (l : List Char) :
    dropTrailingWS l = l.take ((dropTrailingWS l).length) := by
  induction l with
  | nil => rfl
  | cons c t ih =>
    cases h : dropTrailingWS t with
    | nil =>
      by_cases hc : isPySpace c = true
      · simp [dropTrailingWS, h, hc]
      · simp [dropTrailingWS, h, hc]
    | cons a r =>
      have heq : dropTrailingWS (c :: t) = c :: a :: r := by
        simp [dropTrailingWS, h]
      rw [heq, List.length_cons, List.take_succ_cons]
      rw [h] at ih
      rw [← ih]

theorem dtw_length_le (l : List Char) :
    (dropTrailingWS l).length ≤ l.length := by
  have h := congrArg List.length (dtw_eq_take l)
  rw [List.length_take] at h
  omega

theorem dtw_ws_after (l : List Char) :
    ∀ i, (dropTrailingWS l).length ≤ i → i < l.length →
      ∃ c, l[i]? = some c ∧ isPySpace c = true := by
  induction l with
  | nil => intro i _ h2; cases h2
  | cons c t ih =>
    intro i h1 h2
    cases hdt : dropTrailingWS t with
    | nil =>
      by_cases hc : isPySpace c = true
      · cases i with
        | zero => exact ⟨c, by simp, hc⟩
        | succ i2 =>
          obtain ⟨d, hd1, hd2⟩ := ih i2 (by simp [hdt])
            (by simp only [List.length_cons] at h2; omega)
          exact ⟨d, by simpa using hd1, hd2⟩
      · have hlen : dropTrailingWS (c :: t) = [c] := by
          simp [dropTrailingWS, hdt, hc]
        rw [hlen] at h1
        cases i with
        | zero => simp at h1
        | succ i2 =>
          obtain ⟨d, hd1, hd2⟩ := ih i2 (by simp [hdt])
            (by simp only [List.length_cons] at h2; omega)
          exact ⟨d, by simpa using hd1, hd2⟩
    | cons a r =>
      have hlen : dropTrailingWS (c :: t) = c :: a :: r := by
        simp [dropTrailingWS, hdt]
      rw [hlen] at h1
      cases i with
      | zero => simp [List.length_cons] at h1
      | succ i2 =>
        have h1b : (dropTrailingWS t).length ≤ i2 := by
          rw [hdt]
          simp only [List.length_cons] at h1 ⊢
          omega
        obtain ⟨d, hd1, hd2⟩ := ih i2 h1b
          (by simp only [List.length_cons] at h2; omega)
        exact ⟨d, by simpa using hd1, hd2⟩

theorem dtw_idem (l : List Char) :
    dropTrailingWS (dropTrailingWS l) = dropTrailingWS l := by
  induction l with
  | nil => rfl
  | cons c t ih =>
    cases h : dropTrailingWS t with
    | nil =>
      by_cases hc : isPySpace c = true
      · simp [dropTrailingWS, h, hc]
      · simp [dropTrailingWS, h, hc]
    | cons a r =>
      have hlen : dropTrailingWS (c :: t) = c :: a :: r := by
        simp [dropTrailingWS, h]
      rw [hlen]
      rw [h] at ih
      conv_lhs => rw [dropTrailingWS]
      rw [ih]

theorem dtw_head {l : List Char} {c : Char} {r : List Char}
    (h : dropTrailingWS l = c :: r) : ∃ t2, l = c :: t2 := by
  have he := dtw_eq_take l
  rw [h] at he
  cases l with
  | nil => cases he
  | cons d t =>
    rw [List.length_cons, List.take_succ_cons] at he
    injection he with h1 h2
    exact ⟨t, by rw [h1]⟩

theorem dropWhile_head_not {p : Char → Bool} {l : List Char} {c : Char}
    {t : List Char} (h : l.dropWhile p = c :: t) : p c = false := by
  induction l with
  | nil => cases h
  | cons d l2 ih =>
    by_cases hd : p d = true
    · rw [List.dropWhile_cons, if_pos hd] at h
      exact ih h
    · rw [List.dropWhile_cons, if_neg hd] at h
      injection h with h1 h2
      subst h1
      exact Bool.eq_false_iff.mpr hd

theorem pyStrip_idem (l : List Char) : pyStrip (pyStrip l) = pyStrip l := by
  unfold pyStrip
  have hdw : (dropTrailingWS (l.dropWhile isPySpace)).dropWhile isPySpace =
      dropTrailingWS (l.dropWhile isPySpace) := by
    cases h : dropTrailingWS (l.dropWhile isPySpace) with
    | nil => rfl
    | cons c r =>
      obtain ⟨t2, ht2⟩ := dtw_head h
      have hc : isPySpace c = false := dropWhile_head_not (l := l) ht2
      rw [List.dropWhile_cons, if_neg (by rw [hc]; exact Bool.false_ne_true)]
  rw [hdw, dtw_idem]

theorem pyStrip_take (s : List Char) (i : Nat) (hs : pyStrip s = s) :
    ∃ e, e ≤ i ∧ e ≤ s.length ∧ pyStrip (s.take i) = s.take e ∧
      ∀ k, e ≤ k → k < i → k < s.length →
        ∃ c, s[k]? = some c ∧ isPySpace c = true := by
  cases s with
  | nil =>
    refine ⟨0, by omega, by omega, by simp [pyStrip, dropTrailingWS], ?_⟩
    intro k _ _ hk
    cases hk
  | cons c t =>
    have hc : isPySpace c = false := by
      by_cases h : isPySpace c = true
      · exfalso
        have h1 : pyStrip (c :: t) = dropTrailingWS (t.dropWhile isPySpace) := by
          unfold pyStrip
          rw [List.dropWhile_cons, if_pos h]
        have h2 := dtw_length_le (t.dropWhile isPySpace)
        have h3 : (t.dropWhile isPySpace).length ≤ t.length :=
          (List.dropWhile_suffix isPySpace).length_le
        rw [hs] at h1
        have h4 := congrArg List.length h1
        simp only [List.length_cons] at h4
        omega
      · exact Bool.eq_false_iff.mpr h
    cases i with
    | zero =>
      refine ⟨0, le_refl 0, by omega, by simp [pyStrip, dropTrailingWS], ?_⟩
      intro k _ h2 _
      exact absurd h2 (Nat.not_lt_zero k)
    | succ i2 =>
      have htake : (c :: t).take (i2 + 1) = c :: t.take i2 := List.take_succ_cons
      have h1 : pyStrip ((c :: t).take (i2 + 1)) =
          dropTrailingWS ((c :: t).take (i2 + 1)) := by
        unfold pyStrip
        rw [htake, List.dropWhile_cons, if_neg (by rw [hc]; exact Bool.false_ne_true)]
      have h2 := dtw_eq_take ((c :: t).take (i2 + 1))
      have hlenu : (dropTrailingWS ((c :: t).take (i2 + 1))).length ≤ i2 + 1 := by
        have := dtw_length_le ((c :: t).take (i2 + 1))
        rw [List.length_take] at this
        omega
      refine ⟨(dropTrailingWS ((c :: t).take (i2 + 1))).length, hlenu, ?_, ?_, ?_⟩
      · have h5 := dtw_length_le ((c :: t).take (i2 + 1))
        rw [List.length_take] at h5
        omega
      · conv_lhs => rw [h1, h2, List.take_take]
        congr 1
        exact Nat.min_eq_left hlenu
      · intro k hk1 hk2 hk3
        have hk4 : k < ((c :: t).take (i2 + 1)).length := by
          rw [List.length_take]
          omega
        obtain ⟨d, hd1, hd2⟩ := dtw_ws_after ((c :: t).take (i2 + 1)) k hk1 hk4
        refine ⟨d, ?_, hd2⟩
        rw [List.getElem?_take, if_pos hk2] at hd1
        exact hd1

/-! Pattern and truncation-step lemmas (for claim C3). -/

theorem pat_shape {pat : List Char}
    (hpat : pat = [' ', '#'] ∨ pat = [' ', ';'] ∨ pat = (' ' :: ['/', '/'])) :
    ∃ rest, pat = ' ' :: rest ∧ rest ≠ [] ∧
      rest.all (fun c => !isPySpace c) = true := by
  rcases hpat with h | h | h <;> subst h
  · exact ⟨['#'], rfl, by decide, by decide⟩
  · exact ⟨[';'], rfl, by decide, by decide⟩
  · exact ⟨['/', '/'], rfl, by decide, by decide⟩

theorem anyPat_eq_true_iff {u : List Char} :
    anyPat u = true ↔
      strStartsWith [' ', '#'] u = true ∨ strStartsWith [' ', ';'] u = true ∨
      strStartsWith (' ' :: ['/', '/']) u = true := by
  simp [anyPat, Bool.or_eq_true, or_assoc]

theorem no_overlap {p q s : List Char} {j j2 : Nat}
    (hp : ∃ rest, p = ' ' :: rest ∧ rest ≠ [] ∧
      rest.all (fun c => !isPySpace c) = true)
    (hq0 : q[0]? = some ' ')
    (hpj : strStartsWith p (s.drop j) = true)
    (hqj : strStartsWith q (s.drop j2) = true)
    (h1 : j < j2) (h2 : j2 < j + p.length) : False := by
  obtain ⟨rest, rfl, hne, hall⟩ := hp
  have hqlen : 0 < q.length := by
    cases q with
    | nil => cases hq0
    | cons a b => simp
  have hs2 : s[j2 + 0]? = q[0]? := ssw_getElem hqj 0 hqlen
  rw [hq0, Nat.add_zero] at hs2
  have hi2 : j2 - j < (' ' :: rest).length := by
    simp only [List.length_cons] at h2 ⊢
    omega
  have hsp : s[j + (j2 - j)]? = (' ' :: rest)[j2 - j]? := ssw_getElem hpj _ hi2
  obtain ⟨i3, hi3⟩ : ∃ i3, j2 - j = i3 + 1 := ⟨j2 - j - 1, by omega⟩
  rw [hi3] at hsp hi2
  have hidx : (' ' :: rest)[i3 + 1]? = rest[i3]? := by simp
  have hlt2 : i3 < rest.length := by
    simp only [List.length_cons] at hi2
    omega
  rw [hidx, List.getElem?_eq_getElem hlt2] at hsp
  have hj2 : j + (i3 + 1) = j2 := by omega
  rw [hj2] at hsp
  have hcc := hsp.symm.trans hs2
  injection hcc with hcc
  have hnw := List.all_eq_true.mp hall _ (List.getElem_mem hlt2)
  rw [hcc] at hnw
  simp [isPySpace] at hnw

theorem stripCommentStep_stripped {pat s : List Char} (hs : pyStrip s = s) :
    pyStrip (stripCommentStep pat s) = stripCommentStep pat s := by
  unfold stripCommentStep
  cases h : pyFind pat s with
  | none => exact hs
  | some i => exact pyStrip_idem _

theorem stripCommentStep_eq_take {pat s : List Char} (hs : pyStrip s = s) :
    ∃ e, e ≤ s.length ∧ stripCommentStep pat s = s.take e := by
  unfold stripCommentStep
  cases h : pyFind pat s with
  | none => exact ⟨s.length, le_refl _, (List.take_length _).symm⟩
  | some i =>
    obtain ⟨e, he1, he2, he3, he4⟩ := pyStrip_take s i hs
    exact ⟨e, he2, he3⟩

theorem ssw_of_ssw_take {p s : List Char} {e j : Nat}
    (h : strStartsWith p ((s.take e).drop j) = true) :
    strStartsWith p (s.drop j) = true := by
  rw [List.drop_take] at h
  exact (ssw_take_iff.mp h).1

theorem step_sub {pat P s : List Char} {j : Nat} (hs : pyStrip s = s)
    (h : strStartsWith P ((stripCommentStep pat s).drop j) = true) :
    strStartsWith P (s.drop j) = true := by
  obtain ⟨e, _, he⟩ := @stripCommentStep_eq_take pat _ hs
  rw [he] at h
  exact ssw_of_ssw_take h

theorem step_kills {pat s : List Char} (hs : pyStrip s = s) (hne : pat ≠ []) :
    ∀ j, strStartsWith pat ((stripCommentStep pat s).drop j) = false := by
  intro j
  cases hss : strStartsWith pat ((stripCommentStep pat s).drop j) with
  | false => rfl
  | true =>
    exfalso
    unfold stripCommentStep at hss
    cases hf : pyFind pat s with
    | none =>
      simp only [hf] at hss
      have hnone := @firstMatch_none (fun u => strStartsWith pat u) _ hf
      by_cases hj : j < s.length
      · have h1 := hnone j hj
        cases hss.symm.trans h1
      · rw [List.drop_eq_nil_of_le (by omega), ssw_nil_of_ne hne] at hss
        cases hss
    | some i1 =>
      simp only [hf] at hss
      obtain ⟨e, he1, he2, he3, he4⟩ := pyStrip_take s i1 hs
      rw [he3, ssw_drop_take_iff hne] at hss
      obtain ⟨h1, h2⟩ := hss
      have hmin := (firstMatch_some hf).2
      have hlp : 1 ≤ pat.length := by
        cases pat with
        | nil => exact absurd rfl hne
        | cons a b => simp
      have h3 := hmin j (by omega)
      cases h1.symm.trans h3

theorem occ_within (s pat Pk : List Char) {m i1 e : Nat}
    (hshapeP : ∃ rest, Pk = ' ' :: rest ∧ rest ≠ [] ∧
      rest.all (fun c => !isPySpace c) = true)
    (hq0 : pat[0]? = some ' ')
    (hm : strStartsWith Pk (s.drop m) = true)
    (hi1 : strStartsWith pat (s.drop i1) = true)
    (hlt : m < i1)
    (hi1s : i1 + pat.length ≤ s.length)
    (he4 : ∀ k, e ≤ k → k < i1 → k < s.length →
      ∃ c, s[k]? = some c ∧ isPySpace c = true) :
    m + Pk.length ≤ e := by
  have hk1 : m + Pk.length ≤ i1 := by
    by_contra hcon
    push_neg at hcon
    exact no_overlap hshapeP hq0 hm hi1 hlt hcon
  by_contra hcon
  push_neg at hcon
  obtain ⟨rest, hP, hPne, hPall⟩ := hshapeP
  have hlr : 1 ≤ rest.length := by
    cases rest with
    | nil => exact absurd rfl hPne
    | cons a b => simp
  have hPlen : Pk.length = rest.length + 1 := by rw [hP]; simp
  have h1 : e ≤ m + Pk.length - 1 := by omega
  have h2 : m + Pk.length - 1 < i1 := by omega
  have h3 : m + Pk.length - 1 < s.length := by omega
  obtain ⟨c, hc1, hc2⟩ := he4 (m + Pk.length - 1) h1 h2 h3
  have hidx : s[m + rest.length]? = Pk[rest.length]? :=
    ssw_getElem hm rest.length (by omega)
  have hk0m : m + rest.length = m + Pk.length - 1 := by omega
  rw [hk0m, hc1] at hidx
  obtain ⟨rl, hrl⟩ : ∃ rl, rest.length = rl + 1 := ⟨rest.length - 1, by omega⟩
  have hlt2 : rl < rest.length := by omega
  have hPk_at : Pk[rest.length]? = some rest[rl] := by
    rw [hP, hrl, List.getElem?_cons_succ]
    exact List.getElem?_eq_getElem hlt2
  rw [hPk_at] at hidx
  injection hidx with hcc
  have hnw := List.all_eq_true.mp hPall _ (List.getElem_mem hlt2)
  rw [← hcc] at hnw
  rw [hc2] at hnw
  simp at hnw

/-- Core invariant for claim C3: one sequential truncation step of
`_strip_comment` does not change the trimmed cut at the first
introducer-after-space position. -/
theorem inv_step {s pat : List Char} (hs : pyStrip s = s)
    (hpat : pat = [' ', '#'] ∨ pat = [' ', ';'] ∨ pat = (' ' :: ['/', '/'])) :
    pyStrip (cutAtFirstAny (stripCommentStep pat s)) =
      pyStrip (cutAtFirstAny s) := by
  obtain ⟨rest, hshape, hrne, hrall⟩ := pat_shape hpat
  have hne : pat ≠ [] := by rw [hshape]; exact List.cons_ne_nil _ _
  have hq0 : pat[0]? = some ' ' := by rw [hshape]; simp
  unfold stripCommentStep
  cases hf : pyFind pat s with
  | none => rfl
  | some i1 =>
    show pyStrip (cutAtFirstAny (pyStrip (List.take i1 s))) =
      pyStrip (cutAtFirstAny s)
    have hfs := @firstMatch_some (fun u => strStartsWith pat u) _ _ hf
    have hm1 : strStartsWith pat (s.drop i1) = true := hfs.1
    have hmin1 : ∀ i, i < i1 → strStartsWith pat (s.drop i) = false := hfs.2
    have hlp : 1 ≤ pat.length := by rw [hshape]; simp
    have hi1len : i1 + pat.length ≤ s.length := by
      have h1 := ssw_length_le hm1
      rw [List.length_drop] at h1
      omega
    have hany : anyPat (s.drop i1) = true := by
      rw [anyPat_eq_true_iff]
      rcases hpat with h | h | h <;> subst h
      · exact Or.inl hm1
      · exact Or.inr (Or.inl hm1)
      · exact Or.inr (Or.inr hm1)
    obtain ⟨e, he1, he2, he3, he4⟩ := pyStrip_take s i1 hs
    rw [he3]
    cases hA : firstMatch anyPat s with
    | none =>
      exfalso
      have h1 := firstMatch_none hA i1 (by omega)
      cases hany.symm.trans h1
    | some m =>
      have hAs := firstMatch_some hA
      have hAm : anyPat (s.drop m) = true := hAs.1
      have hAmin : ∀ i, i < m → anyPat (s.drop i) = false := hAs.2
      have hmi1 : m ≤ i1 := by
        by_contra hcon
        push_neg at hcon
        cases hany.symm.trans (hAmin i1 hcon)
      rcases Nat.eq_or_lt_of_le hmi1 with heq | hlt
      · have hnone : firstMatch anyPat (s.take e) = none := by
          cases hB : firstMatch anyPat (s.take e) with
          | none => rfl
          | some j =>
            exfalso
            have hBj := (firstMatch_some hB).1
            rw [anyPat_eq_true_iff] at hBj
            have hje : j < e := by
              rcases hBj with h | h | h <;>
              · have h2 := ((ssw_drop_take_iff (by decide)).mp h).2
                simp only [List.length_cons, List.length_nil] at h2
                omega
            have hjany : anyPat (s.drop j) = true := by
              rw [anyPat_eq_true_iff]
              rcases hBj with h | h | h
              · exact Or.inl ((ssw_drop_take_iff (by decide)).mp h).1
              · exact Or.inr (Or.inl ((ssw_drop_take_iff (by decide)).mp h).1)
              · exact Or.inr (Or.inr ((ssw_drop_take_iff (by decide)).mp h).1)
            have h3 := hAmin j (by omega)
            cases hjany.symm.trans h3
        have hCL : cutAtFirstAny (s.take e) = s.take e := by
          unfold cutAtFirstAny
          rw [hnone]
        have hCR : cutAtFirstAny s = s.take m := by
          unfold cutAtFirstAny
          rw [hA]
        rw [hCL, hCR, ← he3, pyStrip_idem, heq]
      · rw [anyPat_eq_true_iff] at hAm
        have hme : anyPat ((s.take e).drop m) = true ∧ m < e := by
          rcases hAm with h | h | h
          · have hk := occ_within s pat [' ', '#']
              ⟨['#'], rfl, by decide, by decide⟩ hq0 h hm1 hlt hi1len he4
            simp only [List.length_cons, List.length_nil] at hk
            refine ⟨?_, by omega⟩
            rw [anyPat_eq_true_iff]
            refine Or.inl ((ssw_drop_take_iff (by decide)).mpr ⟨h, ?_⟩)
            simp only [List.length_cons, List.length_nil]
            omega
          · have hk := occ_within s pat [' ', ';']
              ⟨[';'], rfl, by decide, by decide⟩ hq0 h hm1 hlt hi1len he4
            simp only [List.length_cons, List.length_nil] at hk
            refine ⟨?_, by omega⟩
            rw [anyPat_eq_true_iff]
            refine Or.inr (Or.inl ((ssw_drop_take_iff (by decide)).mpr ⟨h, ?_⟩))
            simp only [List.length_cons, List.length_nil]
            omega
          · have hk := occ_within s pat (' ' :: ['/', '/'])
              ⟨['/', '/'], rfl, by decide, by decide⟩ hq0 h hm1 hlt hi1len he4
            simp only [List.length_cons, List.length_nil] at hk
            refine ⟨?_, by omega⟩
            rw [anyPat_eq_true_iff]
            refine Or.inr (Or.inr ((ssw_drop_take_iff (by decide)).mpr ⟨h, ?_⟩))
            simp only [List.length_cons, List.length_nil]
            omega
        have hmin2 : ∀ i, i < m → anyPat ((s.take e).drop i) = false := by
          intro i hi
          cases hx : anyPat ((s.take e).drop i) with
          | false => rfl
          | true =>
            exfalso
            rw [anyPat_eq_true_iff] at hx
            have h2 : anyPat (s.drop i) = true := by
              rw [anyPat_eq_true_iff]
              rcases hx with h | h | h
              · exact Or.inl (ssw_of_ssw_take h)
              · exact Or.inr (Or.inl (ssw_of_ssw_take h))
              · exact Or.inr (Or.inr (ssw_of_ssw_take h))
            cases h2.symm.trans (hAmin i hi)
        have hmlen : m < (s.take e).length := by
          rw [List.length_take]
          have := hme.2
          omega
        have key : firstMatch anyPat (s.take e) = some m :=
          firstMatch_eq_some hme.1 hmin2 hmlen
        have hCL : cutAtFirstAny (s.take e) = (s.take e).take m := by
          unfold cutAtFirstAny
          rw [key]
        have hCR : cutAtFirstAny s = s.take m := by
          unfold cutAtFirstAny
          rw [hA]
        rw [hCL, hCR, List.take_take]
        congr 2
        exact Nat.min_eq_left (le_of_lt hme.2)

theorem cutAtFirstAny_of_no {s : List Char}
    (h : ∀ j, anyPat (s.drop j) = false) : cutAtFirstAny s = s := by
  unfold cutAtFirstAny
  cases hA : firstMatch anyPat s with
  | none => rfl
  | some m =>
    exfalso
    have h1 := (firstMatch_some hA).1
    cases h1.symm.trans (h m)

theorem spec_eq_cut (line : List Char) :
    specStripCommentSpace line = pyStrip (cutAtFirstAny (pyStrip line)) := by
  simp only [specStripCommentSpace, cutAtFirstAny]
  cases hA : firstMatch anyPat (pyStrip line) with
  | none => exact (pyStrip_idem line).symm
  | some m => rfl

theorem c3_main (l0 : List Char) (hs0 : pyStrip l0 = l0) :
    pyStrip (stripCommentStep (' ' :: ['/', '/'])
      (stripCommentStep [' ', ';'] (stripCommentStep [' ', '#'] l0))) =
    pyStrip (cutAtFirstAny l0) := by
  have hstr1 : pyStrip (stripCommentStep [' ', '#'] l0) =
      stripCommentStep [' ', '#'] l0 := stripCommentStep_stripped hs0
  have hstr2 : pyStrip (stripCommentStep [' ', ';'] (stripCommentStep [' ', '#'] l0)) =
      stripCommentStep [' ', ';'] (stripCommentStep [' ', '#'] l0) :=
    stripCommentStep_stripped hstr1
  have h1 := inv_step hs0 (Or.inl rfl)
  have h2 := inv_step hstr1 (Or.inr (Or.inl rfl))
  have h3 := inv_step hstr2 (Or.inr (Or.inr rfl))
  have hno : ∀ j, anyPat ((stripCommentStep (' ' :: ['/', '/'])
      (stripCommentStep [' ', ';'] (stripCommentStep [' ', '#'] l0))).drop j) = false := by
    intro j
    cases hx : anyPat ((stripCommentStep (' ' :: ['/', '/'])
        (stripCommentStep [' ', ';'] (stripCommentStep [' ', '#'] l0))).drop j) with
    | false => rfl
    | true =>
      exfalso
      rw [anyPat_eq_true_iff] at hx
      rcases hx with h | h | h
      · have hh2 := step_sub hstr2 h
        have hh1 := step_sub hstr1 hh2
        have hk := @step_kills [' ', '#'] _ hs0 (by decide) j
        cases hh1.symm.trans hk
      · have hh2 := step_sub hstr2 h
        have hk := @step_kills [' ', ';'] _ hstr1 (by decide) j
        cases hh2.symm.trans hk
      · have hk := @step_kills (' ' :: ['/', '/']) _ hstr2 (by decide) j
        cases h.symm.trans hk
  calc pyStrip (stripCommentStep (' ' :: ['/', '/'])
        (stripCommentStep [' ', ';'] (stripCommentStep [' ', '#'] l0)))
      = pyStrip (cutAtFirstAny (stripCommentStep (' ' :: ['/', '/'])
          (stripCommentStep [' ', ';'] (stripCommentStep [' ', '#'] l0)))) := by
        rw [cutAtFirstAny_of_no hno]
    _ = pyStrip (cutAtFirstAny (stripCommentStep [' ', ';']
          (stripCommentStep [' ', '#'] l0))) := h3
    _ = pyStrip (cutAtFirstAny (stripCommentStep [' ', '#'] l0)) := h2
    _ = pyStrip (cutAtFirstAny l0) := h1

/-- C3 counterexample: in the line `"a\t#b"` the token `#` is preceded by
whitespace (a tab), so the claim's normalizer truncates to `"a"`, yet the
code's `_strip_comment` searches only for a space before the token and leaves
the line unchanged. -/
theorem c3_counterexample :
    strip_comment "a\t#b".data = "a\t#b".data ∧
    specStripCommentWS "a\t#b".data = "a".data ∧
    strip_comment "a\t#b".data ≠ specStripCommentWS "a\t#b".data := by
  refine ⟨by decide, by decide, by decide⟩

/-- C3 (amended): for every raw input line, the normalizer trims it and
truncates at the first occurrence of a comment-introducer token (`#`, `;` or
`//`) preceded by a space character (U+0020), then re-trims; it never
truncates at a token whose preceding character is not a space — in
particular not at one preceded by other whitespace such as a tab, and not at
one with no preceding whitespace at all. -/
theorem c3_strip_comment_amended (line : List Char) :
    strip_comment line = specStripCommentSpace line := by
  rw [spec_eq_cut]
  by_cases h0 : pyStrip line = []
  · simp only [strip_comment]
    rw [h0, if_pos rfl]
    rfl
  · simp only [strip_comment]
    rw [if_neg h0]
    exact c3_main (pyStrip line) (pyStrip_idem line)
